import Mathlib

/-!
Verification development for a data-parallel training script
(`src/ddp_cifar100_val.py`): synchronized batch normalization,
gradient averaging, validation sharding and metric aggregation.

Numbers are modelled in exact arithmetic (`ℚ` for tensor entries,
`ℕ`/`ℤ` for sizes), so every statement about numeric agreement is
"up to floating-point reduction-order tolerance" in the source's terms.
-/

namespace DDP

/-! ## Python / torch primitives used by the validation scatter

The validation-set distribution code (lines 92–102 of the source) mixes
Python true division, `torch.zeros`, `torch.split` and `dist.scatter`.
We embed just enough of their semantics to decide the claims about it. -/

/-- A Python numeric value: `int` or `float`.  Python's `/` on two `int`s
always returns a `float`, even when the quotient is integral; we track the
tag because `torch.zeros` accepts only `int` dimensions. -/
inductive PyNum where
  | int : ℤ → PyNum
  | float : ℚ → PyNum
deriving DecidableEq, Repr

/-- The rational value carried by a `PyNum`. -/
def PyNum.toRat : PyNum → ℚ
  | .int n => (n : ℚ)
  | .float q => q

/-- Python true division `a / b`: always produces a `float`. -/
def pyTrueDiv (a b : PyNum) : PyNum :=
  .float (a.toRat / b.toRat)

/-- `torch.zeros` dimension checking: a dimension must be a Python `int`
(a `float` raises `TypeError`, even an integral one such as `2500.0`) and
non-negative.  `none` models the raised exception. -/
def torchZerosDim : PyNum → Option ℕ
  | .int n => if 0 ≤ n then some n.toNat else none
  | .float _ => none

/-- `torch.split(t, split_size)` along dimension 0 of a tensor with `n`
rows: the sizes of the resulting chunks.  Every chunk has exactly
`split_size` rows except possibly the last, which holds the remainder;
the number of chunks is `⌈n / split_size⌉`. -/
def torchSplit (n chunk : ℕ) : List ℕ :=
  (List.range ((n + chunk - 1) / chunk)).map (fun i => min chunk (n - chunk * i))

/-! ### Embedding of the scatter set-up in `run_training` (lines 91–102)

* `val_tensor` has `valRows = 10000` rows (from
  `random_split(dataset, [len(dataset) - 10000, 10000])`) and some column
  count `cols` (`hstack` of the features and the label column).
* rank 0 runs `val = torch.zeros(size=(val_tensor.shape[0] / process_count,
  val_tensor.shape[1]))` and `val_tensor_list = torch.split(val_tensor,
  process_count)`, then `dist.scatter(val, scatter_list=val_tensor_list)`;
* every other rank runs `val = torch.zeros(size=(10,))` and
  `dist.scatter(val, scatter_list=None)`. -/

/-- Number of rows of the validation tensor held by rank 0. -/
def valRows : ℕ := 10000

/-- The first dimension rank 0 passes to `torch.zeros`:
`val_tensor.shape[0] / process_count`, a Python true division. -/
def rank0BufDim (rows K : ℕ) : Option ℕ :=
  torchZerosDim (pyTrueDiv (.int rows) (.int K))

/-- The chunk-size list produced by `torch.split(val_tensor, process_count)`
on rank 0: `process_count` is passed as the *size of each chunk*, not as the
number of chunks. -/
def scatterChunkSizes (rows K : ℕ) : List ℕ :=
  torchSplit rows K

/-- The receive-buffer shape supplied by every non-zero rank:
`torch.zeros(size=(10,))`, a 1-D tensor of 10 elements. -/
def nonzeroRankBufShape : List ℕ := [10]

/-- Shape of the shard `dist.scatter` would send to rank `r`: the `r`-th
chunk of the 2-D validation tensor, a 2-D shape. -/
def shardShape (rows K cols r : ℕ) : List ℕ :=
  [(scatterChunkSizes rows K).getD r 0, cols]

/-! Basic facts about the split embedding. -/

theorem torchSplit_length (n chunk : ℕ) :
    (torchSplit n chunk).length = (n + chunk - 1) / chunk := by
  simp [torchSplit]

theorem torchSplit_le (n chunk : ℕ) :
    ∀ c ∈ torchSplit n chunk, c ≤ chunk := by
  intro c hc
  simp only [torchSplit, List.mem_map] at hc
  obtain ⟨i, _, rfl⟩ := hc
  exact min_le_left _ _

theorem torchSplit_getD (n chunk i : ℕ) (hc : 1 ≤ chunk)
    (hi : i + 1 < (torchSplit n chunk).length) :
    (torchSplit n chunk).getD i 0 = chunk := by
  rw [torchSplit_length] at hi
  have hi' : i < (n + chunk - 1) / chunk := Nat.lt_of_succ_lt hi
  have hmul : (i + 2) * chunk ≤ n + chunk - 1 :=
    (Nat.le_div_iff_mul_le hc).mp hi
  have hfull : chunk ≤ n - chunk * i := by
    have h2 : i * chunk + 2 * chunk ≤ n + chunk - 1 := by
      calc i * chunk + 2 * chunk = (i + 2) * chunk := by ring
        _ ≤ n + chunk - 1 := hmul
    have h3 : chunk * i = i * chunk := Nat.mul_comm chunk i
    rw [h3]
    generalize i * chunk = t at h2 ⊢
    omega
  have hget : (torchSplit n chunk)[i]? = some (min chunk (n - chunk * i)) := by
    simp [torchSplit, List.getElem?_range hi']
  rw [List.getD_eq_getElem?_getD, hget]
  simp [Nat.min_eq_left hfull]

/-- C10: for every world size `K ≥ 1`, the validation scatter set-up is not
executable as written — rank 0's receive buffer gets a float (true-division)
dimension that `torch.zeros` rejects; `torch.split` is called with the
process count as the *chunk size*, so it produces `⌈10000/K⌉` chunks of `K`
rows each (last chunk excepted) rather than `K` shards; and every non-zero
rank's receive buffer has the fixed 1-D shape `(10,)`, which never matches
the 2-D shard shape rank 0 would send. -/
theorem C10_scatter_setup_not_executable (K : ℕ) (hK : 1 ≤ K) :
    rank0BufDim valRows K = none
    ∧ (scatterChunkSizes valRows K).length = (valRows + K - 1) / K
    ∧ (∀ i, i + 1 < (scatterChunkSizes valRows K).length →
        (scatterChunkSizes valRows K).getD i 0 = K)
    ∧ (∀ c ∈ scatterChunkSizes valRows K, c ≤ K)
    ∧ (∀ cols r, shardShape valRows K cols r ≠ nonzeroRankBufShape) := by
  refine ⟨rfl, torchSplit_length _ _, ?_, torchSplit_le _ _, ?_⟩
  · intro i hi
    exact torchSplit_getD _ _ _ hK hi
  · intro cols r h
    simp [shardShape, nonzeroRankBufShape] at h

theorem C10_scatter_setup_not_executable_witness :
    1 ≤ 3
    ∧ (rank0BufDim valRows 3 = none
    ∧ (scatterChunkSizes valRows 3).length = (valRows + 3 - 1) / 3
    ∧ (∀ i, i + 1 < (scatterChunkSizes valRows 3).length →
        (scatterChunkSizes valRows 3).getD i 0 = 3)
    ∧ (∀ c ∈ scatterChunkSizes valRows 3, c ≤ 3)
    ∧ (∀ cols r, shardShape valRows 3 cols r ≠ nonzeroRankBufShape)) :=
  ⟨by norm_num, C10_scatter_setup_not_executable 3 (by norm_num)⟩

/-- C4: the claimed partition into `K` near-equal shards does not happen in
the code.  At validation-set size `M = 10000` and world size `K = 3`, the
rank-0 buffer allocation fails (float dimension `10000 / 3`), and
`torch.split(val_tensor, 3)` yields `3334` chunks, not `3` shards. -/
theorem C4_partition_step_fails :
    rank0BufDim valRows 3 = none
    ∧ (scatterChunkSizes valRows 3).length = 3334
    ∧ (scatterChunkSizes valRows 3).length ≠ 3 := by
  have hlen : (scatterChunkSizes valRows 3).length = 3334 := by
    rw [scatterChunkSizes, torchSplit_length, valRows]
  exact ⟨rfl, hlen, by rw [hlen]; norm_num⟩

/-! ## Gradient synchronizer (`average_gradients`, lines 68–72)

A gradient tensor is modelled as a flat `List ℚ` of entries.  The collective
`dist.all_reduce(·, op=SUM)` hands the element-wise sum of all workers'
tensors back to every worker, so its result is a single shared tensor. -/

/-- Element-wise sum of the workers' copies of one tensor, as delivered by
`dist.all_reduce(op=SUM)`.  All participants supply tensors of identical
shape (§4.1 of the protocol); on an empty participant list the result is
empty. -/
def allReduceSum : List (List ℚ) → List ℚ
  | [] => []
  | t :: ts => ts.foldl (List.zipWith (· + ·)) t

/-- Accessing `param.grad.data` on every worker for one parameter: succeeds
with the list of per-worker tensors only when every worker's gradient is
defined; a `none` gradient on any worker makes the round fail (the Python
code raises `AttributeError` on `None.data`, and a worker that dies before
a collective stalls the round for everyone). -/
def collectGrads : List (Option (List ℚ)) → Option (List (List ℚ))
  | [] => some []
  | none :: _ => none
  | some t :: rest => (collectGrads rest).map (t :: ·)

/-- Embedding of `average_gradients(model)`: for each parameter in order,
all-reduce the workers' gradient tensors with `op=SUM`, then divide the
result in place by `world_size`.  `grads p r` is worker `r`'s gradient for
the `p`-th parameter (`none` when undefined).  The result is the list of
synchronized per-parameter tensors — one shared value, since the reduction
returns the same sum to every worker and each divides by the same
`world_size`. -/
def average_gradients (K : ℕ) : List (Fin K → Option (List ℚ)) → Option (List (List ℚ))
  | [] => some []
  | p :: ps =>
    match collectGrads (List.ofFn p), average_gradients K ps with
    | some ts, some rest => some ((allReduceSum ts).map (· / (K : ℚ)) :: rest)
    | _, _ => none

/-- The element-wise cross-worker mean of the tensors `ts`, written out
directly: entry `j` is the sum over workers of entry `j`, divided by `K`. -/
def meanTensor (K : ℕ) (ts : List (List ℚ)) (L : ℕ) : List ℚ :=
  (List.range L).map (fun j => (ts.map (fun t => t.getD j 0)).sum / (K : ℚ))

theorem zipWith_add_length (a b : List ℚ) (h : a.length = b.length) :
    (List.zipWith (· + ·) a b).length = a.length := by
  rw [List.length_zipWith, h, Nat.min_self]

theorem zipWith_add_getD (a b : List ℚ) (h : a.length = b.length) (j : ℕ) :
    (List.zipWith (· + ·) a b).getD j 0 = a.getD j 0 + b.getD j 0 := by
  rcases Nat.lt_or_ge j a.length with hj | hj
  · have hjb : j < b.length := by omega
    have hz : j < (List.zipWith (· + ·) a b).length := by
      rw [zipWith_add_length a b h]; exact hj
    rw [List.getD_eq_getElem _ _ hz, List.getD_eq_getElem _ _ hj,
      List.getD_eq_getElem _ _ hjb, List.getElem_zipWith]
  · have hjb : b.length ≤ j := by omega
    have hz : (List.zipWith (· + ·) a b).length ≤ j := by
      rw [zipWith_add_length a b h]; exact hj
    rw [List.getD_eq_default _ _ hz, List.getD_eq_default _ _ hj,
      List.getD_eq_default _ _ hjb]
    norm_num

theorem foldl_zipWith_length (ts : List (List ℚ)) (init : List ℚ)
    (h : ∀ t ∈ ts, t.length = init.length) :
    (ts.foldl (List.zipWith (· + ·)) init).length = init.length := by
  induction ts generalizing init with
  | nil => rfl
  | cons t ts ih =>
    have ht : t.length = init.length := h t (List.mem_cons_self t ts)
    have hstep : (List.zipWith (· + ·) init t).length = init.length :=
      zipWith_add_length init t ht.symm
    simp only [List.foldl_cons]
    rw [ih (List.zipWith (· + ·) init t)
      (fun u hu => (h u (List.mem_cons_of_mem t hu)).trans hstep.symm), hstep]

theorem foldl_zipWith_getD (ts : List (List ℚ)) (init : List ℚ)
    (h : ∀ t ∈ ts, t.length = init.length) (j : ℕ) :
    (ts.foldl (List.zipWith (· + ·)) init).getD j 0 =
      init.getD j 0 + (ts.map (fun t => t.getD j 0)).sum := by
  induction ts generalizing init with
  | nil => simp
  | cons t ts ih =>
    have ht : t.length = init.length := h t (List.mem_cons_self t ts)
    have hstep : (List.zipWith (· + ·) init t).length = init.length :=
      zipWith_add_length init t ht.symm
    simp only [List.foldl_cons, List.map_cons, List.sum_cons]
    rw [ih (List.zipWith (· + ·) init t)
      (fun u hu => (h u (List.mem_cons_of_mem t hu)).trans hstep.symm),
      zipWith_add_getD init t ht.symm j]
    ring

theorem allReduceSum_length (ts : List (List ℚ)) (L : ℕ) (hne : ts ≠ [])
    (h : ∀ t ∈ ts, t.length = L) :
    (allReduceSum ts).length = L := by
  cases ts with
  | nil => exact absurd rfl hne
  | cons t ts =>
    have ht : t.length = L := h t (List.mem_cons_self t ts)
    rw [allReduceSum,
      foldl_zipWith_length ts t (fun u hu => (h u (List.mem_cons_of_mem t hu)).trans ht.symm), ht]

theorem allReduceSum_getD (ts : List (List ℚ)) (L : ℕ) (hne : ts ≠ [])
    (h : ∀ t ∈ ts, t.length = L) (j : ℕ) :
    (allReduceSum ts).getD j 0 = (ts.map (fun t => t.getD j 0)).sum := by
  cases ts with
  | nil => exact absurd rfl hne
  | cons t ts =>
    have ht : t.length = L := h t (List.mem_cons_self t ts)
    rw [allReduceSum,
      foldl_zipWith_getD ts t (fun u hu => (h u (List.mem_cons_of_mem t hu)).trans ht.symm)]
    simp

theorem collectGrads_all_some (ps : List (Option (List ℚ)))
    (h : ∀ o ∈ ps, ∃ t, o = some t) :
    collectGrads ps = some (ps.map (fun o => o.getD [])) := by
  induction ps with
  | nil => rfl
  | cons o ps ih =>
    obtain ⟨t, rfl⟩ := h o (List.mem_cons_self o ps)
    rw [collectGrads, ih (fun u hu => h u (List.mem_cons_of_mem _ hu))]
    rfl

theorem collectGrads_eq_none (ps : List (Option (List ℚ))) :
    collectGrads ps = none ↔ ∃ o ∈ ps, o = none := by
  induction ps with
  | nil => simp [collectGrads]
  | cons o ps ih =>
    cases o with
    | none => simp [collectGrads]
    | some t =>
      simp only [collectGrads, Option.map_eq_none', ih, List.mem_cons]
      constructor
      · rintro ⟨u, hu, hn⟩; exact ⟨u, Or.inr hu, hn⟩
      · rintro ⟨u, (rfl | hu), hn⟩
        · exact absurd hn (by simp)
        · exact ⟨u, hu, hn⟩

theorem allReduce_div_eq_meanTensor (K : ℕ) (ts : List (List ℚ)) (L : ℕ)
    (hne : ts ≠ []) (h : ∀ t ∈ ts, t.length = L) :
    (allReduceSum ts).map (· / (K : ℚ)) = meanTensor K ts L := by
  have hlen : (allReduceSum ts).length = L := allReduceSum_length ts L hne h
  apply List.ext_getElem
  · simp [meanTensor, hlen]
  · intro i h1 h2
    have hiL : i < L := by simpa [hlen] using h1
    rw [List.getElem_map]
    have hmean : (meanTensor K ts L)[i] =
        (ts.map (fun t => t.getD i 0)).sum / (K : ℚ) := by
      simp [meanTensor, List.getElem_range]
    rw [hmean]
    have hred : (allReduceSum ts)[i] = (ts.map (fun t => t.getD i 0)).sum := by
      rw [← List.getD_eq_getElem (allReduceSum ts) 0 (by rw [hlen]; exact hiL)]
      exact allReduceSum_getD ts L hne h i
    rw [hred]

/-- C3: when every parameter's gradient is defined on every worker (the
situation after `loss.backward()` on the `Net` of this file, all of whose
parameters are used), `average_gradients` succeeds and hands back, for each
parameter in order, the element-wise cross-worker mean of the per-worker
gradient tensors: the `all_reduce(op=SUM)` followed by the in-place division
by `world_size`.  The reduction delivers one shared sum to every worker and
each divides by the same `world_size`, so the resulting tensor — the value
the optimizer reads — is the same on every worker. -/
theorem C3_synchronized_gradient_is_cross_worker_mean (K : ℕ)
    (grads : List (Fin (K + 1) → Option (List ℚ)))
    (hdef : ∀ p ∈ grads, ∀ r, (p r).isSome = true)
    (hshape : ∀ p ∈ grads, ∀ r, ((p r).getD []).length = ((p 0).getD []).length) :
    ∃ gs, average_gradients (K + 1) grads = some gs
      ∧ List.Forall₂ (fun p g =>
          g = meanTensor (K + 1) ((List.ofFn p).map (fun o => o.getD []))
                (((p 0).getD []).length)) grads gs := by
  induction grads with
  | nil => exact ⟨[], rfl, List.Forall₂.nil⟩
  | cons p ps ih =>
    obtain ⟨gs, hgs, hall⟩ :=
      ih (fun q hq => hdef q (List.mem_cons_of_mem _ hq))
        (fun q hq => hshape q (List.mem_cons_of_mem _ hq))
    have hcol : collectGrads (List.ofFn p) =
        some ((List.ofFn p).map (fun o => o.getD [])) := by
      apply collectGrads_all_some
      intro o ho
      rw [List.mem_ofFn] at ho
      obtain ⟨r, rfl⟩ := ho
      have := hdef p (List.mem_cons_self p ps) r
      exact Option.isSome_iff_exists.mp this
    have hts : ∀ t ∈ (List.ofFn p).map (fun o => o.getD []),
        t.length = ((p 0).getD []).length := by
      intro t ht
      rw [List.mem_map] at ht
      obtain ⟨o, ho, rfl⟩ := ht
      rw [List.mem_ofFn] at ho
      obtain ⟨r, rfl⟩ := ho
      exact hshape p (List.mem_cons_self p ps) r
    have htsne : (List.ofFn p).map (fun o => o.getD []) ≠ [] := by
      intro hcontra
      have hlen := congrArg List.length hcontra
      simp at hlen
    refine ⟨(allReduceSum ((List.ofFn p).map (fun o => o.getD []))).map
        (· / ((K + 1 : ℕ) : ℚ)) :: gs, ?_, ?_⟩
    · rw [average_gradients, hcol, hgs]
    · exact List.Forall₂.cons (allReduce_div_eq_meanTensor (K + 1) _ _ htsne hts) hall

theorem C3_synchronized_gradient_is_cross_worker_mean_witness :
    ((∀ p ∈ [fun r : Fin 2 => some [(r : ℚ) * 3, 1]], ∀ r, (p r).isSome = true)
    ∧ (∀ p ∈ [fun r : Fin 2 => some [(r : ℚ) * 3, 1]], ∀ r,
        ((p r).getD []).length = ((p 0).getD []).length))
    ∧ ∃ gs, average_gradients 2 [fun r : Fin 2 => some [(r : ℚ) * 3, 1]] = some gs
      ∧ List.Forall₂ (fun p g =>
          g = meanTensor 2 ((List.ofFn p).map (fun o => o.getD []))
                (((p 0).getD []).length))
          [fun r : Fin 2 => some [(r : ℚ) * 3, 1]] gs :=
  ⟨⟨by decide, by decide⟩,
    C3_synchronized_gradient_is_cross_worker_mean 1
      [fun r : Fin 2 => some [(r : ℚ) * 3, 1]] (by decide) (by decide)⟩

/-- C7 counterexample: with two workers, a first parameter whose gradient is
defined everywhere and a second parameter whose gradient is undefined (as
for a parameter unused in the forward pass), `average_gradients` fails —
the loop body reads `param.grad.data` unconditionally, which on a `None`
gradient raises instead of skipping.  A synchronizer that skipped the
undefined parameter would have returned the reduced first parameter. -/
theorem C7_undefined_gradient_not_skipped :
    average_gradients 2 [fun _ : Fin 2 => some [1, 2], fun _ : Fin 2 => none] = none
    ∧ average_gradients 2 [fun _ : Fin 2 => some [1, 2], fun _ : Fin 2 => none]
        ≠ some [[1, 2]] := by
  constructor
  · rfl
  · intro h
    exact absurd (rfl.trans h : (none : Option (List (List ℚ))) = some [[1, 2]]) (by simp)

/-- C7 amended: the synchronizer does not skip parameters with undefined
gradients — it accesses every parameter's gradient unconditionally and the
synchronization round fails exactly when some parameter's gradient is
undefined on some worker; only when every gradient is defined does it
reduce them all. -/
theorem C7_fails_iff_some_gradient_undefined (K : ℕ)
    (grads : List (Fin (K + 1) → Option (List ℚ))) :
    average_gradients (K + 1) grads = none ↔ ∃ p ∈ grads, ∃ r, p r = none := by
  induction grads with
  | nil => simp [average_gradients]
  | cons p ps ih =>
    cases hc : collectGrads (List.ofFn p) with
    | none =>
      simp only [average_gradients, hc]
      constructor
      · intro _
        obtain ⟨o, ho, hn⟩ := (collectGrads_eq_none _).mp hc
        rw [List.mem_ofFn] at ho
        obtain ⟨r, hr⟩ := ho
        exact ⟨p, List.mem_cons_self p ps, r, by rw [hr]; exact hn⟩
      · intro _; trivial
    | some ts =>
      cases hg : average_gradients (K + 1) ps with
      | none =>
        simp only [average_gradients, hc, hg]
        constructor
        · intro _
          obtain ⟨q, hq, r, hr⟩ := ih.mp hg
          exact ⟨q, List.mem_cons_of_mem _ hq, r, hr⟩
        · intro _; trivial
      | some gs =>
        simp only [average_gradients, hc, hg]
        constructor
        · intro h; exact absurd h (by simp)
        · rintro ⟨q, hq, r, hr⟩
          rcases List.mem_cons.mp hq with rfl | hq'
          · have hnone : collectGrads (List.ofFn q) = none :=
              (collectGrads_eq_none _).mpr ⟨q r, (List.mem_ofFn _ _).mpr ⟨r, rfl⟩, hr⟩
            rw [hc] at hnone
            exact absurd hnone (by simp)
          · have hnone : average_gradients (K + 1) ps = none := ih.mpr ⟨q, hq', r, hr⟩
            rw [hg] at hnone
            exact absurd hnone (by simp)

/-! ## One-step equivalence of distributed and single-process training

`loss = F.cross_entropy(output, target)` uses mean reduction over the batch,
so by linearity of differentiation the local gradient tensor produced by
`loss.backward()` is the mean over the local examples of the per-example
gradient.  With the synchronized normalization layer, a worker's
per-example gradient is a function of the example and of the *global*
batch (whose statistics the layer used), so it is the same function
`gradOf full` in the distributed run and in the single-process run. -/

/-- The gradient of the mean loss over `batch`: entry `j` is the mean over
the batch of entry `j` of the per-example gradient `g`. -/
def meanGradTensor {α : Type} (g : α → List ℚ) (batch : List α) (L : ℕ) : List ℚ :=
  (List.range L).map
    (fun j => (batch.map (fun x => (g x).getD j 0)).sum / (batch.length : ℚ))

/-- One SGD parameter update `θ - lr · grad`: `optimizer.step()` for
`SGD(lr, momentum)` on its first invocation, when the momentum buffer is
freshly initialized to the gradient. -/
def sgdStep (lr : ℚ) (θ grad : List ℚ) : List ℚ :=
  List.zipWith (fun t g => t - lr * g) θ grad

theorem rangeMap_getD (L j : ℕ) (f : ℕ → ℚ) (hj : j < L) :
    ((List.range L).map f).getD j 0 = f j := by
  rw [List.getD_eq_getElem _ _ (by simpa using hj)]
  simp

theorem listMap_sum_eq_fin_sum {α : Type} (l : List α) (F : α → ℚ) :
    (l.map F).sum = ∑ i : Fin l.length, F (l.get i) := by
  conv_lhs => rw [← List.ofFn_getElem l]
  rw [List.map_ofFn, List.sum_ofFn]
  rfl

theorem sum_map_const_nat {α : Type} (l : List α) (c : ℕ) :
    (l.map (fun _ => c)).sum = l.length * c := by
  induction l with
  | nil => simp
  | cons a l ih => simp [ih]; ring

theorem flatten_length_of_size {α : Type} (m : ℕ) (shards : List (List α))
    (hsize : ∀ s ∈ shards, s.length = m + 1) :
    shards.flatten.length = shards.length * (m + 1) := by
  rw [List.length_flatten, List.map_congr_left hsize, sum_map_const_nat]

theorem mean_of_shard_means {α : Type} (m L : ℕ) (shards : List (List α))
    (hne : shards ≠ []) (hsize : ∀ s ∈ shards, s.length = m + 1)
    (g : α → List ℚ) :
    meanTensor shards.length
        (List.ofFn (fun r : Fin shards.length => meanGradTensor g (shards.get r) L)) L
      = meanGradTensor g shards.flatten L := by
  have hn : (shards.length : ℚ) ≠ 0 := by
    have := List.length_pos.mpr hne
    exact_mod_cast Nat.pos_iff_ne_zero.mp this
  have hm : ((m : ℚ) + 1) ≠ 0 := by positivity
  apply List.ext_getElem
  · simp [meanTensor, meanGradTensor]
  · intro j h1 h2
    have hjL : j < L := by simpa [meanTensor] using h1
    simp only [meanTensor, meanGradTensor, List.getElem_map, List.getElem_range]
    have hshard : ∀ r : Fin shards.length,
        ((List.range L).map (fun j' =>
          ((shards.get r).map (fun x => (g x).getD j' 0)).sum /
            ((shards.get r).length : ℚ))).getD j 0 =
          ((shards.get r).map (fun x => (g x).getD j 0)).sum / ((m : ℚ) + 1) := by
      intro r
      rw [rangeMap_getD L j _ hjL, hsize (shards.get r) (List.get_mem shards r.val r.isLt)]
      push_cast
      rfl
    rw [List.map_ofFn, List.sum_ofFn]
    have hsum : ∑ r : Fin shards.length,
        ((fun t => t.getD j 0) ∘ fun r : Fin shards.length =>
          (List.range L).map (fun j' =>
            ((shards.get r).map (fun x => (g x).getD j' 0)).sum /
              ((shards.get r).length : ℚ))) r =
        (∑ r : Fin shards.length,
          ((shards.get r).map (fun x => (g x).getD j 0)).sum) / ((m : ℚ) + 1) := by
      rw [Finset.sum_div]
      exact Finset.sum_congr rfl (fun r _ => hshard r)
    rw [hsum]
    have hflatsum : (shards.flatten.map (fun x => (g x).getD j 0)).sum =
        ∑ r : Fin shards.length,
          ((shards.get r).map (fun x => (g x).getD j 0)).sum := by
      rw [List.map_flatten, List.sum_flatten, List.map_map,
        listMap_sum_eq_fin_sum]
      rfl
    rw [hflatsum, flatten_length_of_size m shards hsize, div_div]
    push_cast
    ring

/-- C1: for identical parameters `θ` on every worker (fixed seed, identical
initialization) and one training step, the gradient that
`average_gradients` hands every worker — each worker first taking the mean
per-example gradient over its own shard of `B/K` examples, per-example
gradients computed against the global batch statistics that the
synchronized normalization layer provides — equals the mean per-example
gradient of a single worker holding the full batch with non-distributed
normalization, and therefore the SGD parameter update is the same. -/
theorem C1_distributed_step_matches_full_batch_step {α : Type} (m L : ℕ)
    (shards : List (List α)) (hne : shards ≠ [])
    (hsize : ∀ s ∈ shards, s.length = m + 1)
    (gradOf : List α → α → List ℚ) (lr : ℚ) (θ : List ℚ) :
    average_gradients shards.length
        [fun r : Fin shards.length =>
          some (meanGradTensor (gradOf shards.flatten) (shards.get r) L)]
      = some [meanGradTensor (gradOf shards.flatten) shards.flatten L]
    ∧ ∀ gsync,
        average_gradients shards.length
            [fun r : Fin shards.length =>
              some (meanGradTensor (gradOf shards.flatten) (shards.get r) L)]
          = some [gsync] →
        sgdStep lr θ gsync =
          sgdStep lr θ (meanGradTensor (gradOf shards.flatten) shards.flatten L) := by
  have hcol : collectGrads (List.ofFn (fun r : Fin shards.length =>
      some (meanGradTensor (gradOf shards.flatten) (shards.get r) L))) =
      some ((List.ofFn (fun r : Fin shards.length =>
        (some (meanGradTensor (gradOf shards.flatten) (shards.get r) L)))).map
          (fun o => o.getD [])) := by
    apply collectGrads_all_some
    intro o ho
    rw [List.mem_ofFn] at ho
    obtain ⟨r, hr⟩ := ho
    exact ⟨_, hr.symm⟩
  have hmap : (List.ofFn (fun r : Fin shards.length =>
      (some (meanGradTensor (gradOf shards.flatten) (shards.get r) L)))).map
        (fun o => o.getD []) =
      List.ofFn (fun r : Fin shards.length =>
        meanGradTensor (gradOf shards.flatten) (shards.get r) L) := by
    rw [List.map_ofFn]
    rfl
  have hts : ∀ t ∈ List.ofFn (fun r : Fin shards.length =>
      meanGradTensor (gradOf shards.flatten) (shards.get r) L), t.length = L := by
    intro t ht
    rw [List.mem_ofFn] at ht
    obtain ⟨r, rfl⟩ := ht
    simp [meanGradTensor]
  have htsne : List.ofFn (fun r : Fin shards.length =>
      meanGradTensor (gradOf shards.flatten) (shards.get r) L) ≠ [] := by
    intro hcontra
    have hlen := congrArg List.length hcontra
    simp at hlen
    exact hne hlen
  have hmain : average_gradients shards.length
      [fun r : Fin shards.length =>
        some (meanGradTensor (gradOf shards.flatten) (shards.get r) L)]
      = some [meanGradTensor (gradOf shards.flatten) shards.flatten L] := by
    have hstep : average_gradients shards.length
        [fun r : Fin shards.length =>
          some (meanGradTensor (gradOf shards.flatten) (shards.get r) L)]
        = some [(allReduceSum (List.ofFn (fun r : Fin shards.length =>
            meanGradTensor (gradOf shards.flatten) (shards.get r) L))).map
              (· / (shards.length : ℚ))] := by
      rw [average_gradients, hcol, hmap]
      rfl
    rw [hstep, allReduce_div_eq_meanTensor shards.length _ L htsne hts,
      mean_of_shard_means m L shards hne hsize]
  refine ⟨hmain, ?_⟩
  intro gsync hg
  rw [hmain] at hg
  have hinj : gsync = meanGradTensor (gradOf shards.flatten) shards.flatten L :=
    ((List.cons_eq_cons.mp (Option.some_injective _ hg)).1).symm
  rw [hinj]

/-- Concrete two-worker instance for exercising the one-step equivalence:
worker 0 holds the single example `1`, worker 1 holds `3`. -/
def wShards : List (List ℚ) := [[1], [3]]

/-- Concrete per-example gradient function: the gradient of example `x` is
the one-entry tensor `[x]` (independent of the batch statistics). -/
def wGrad : List ℚ → ℚ → List ℚ := fun _ x => [x]

theorem C1_distributed_step_matches_full_batch_step_witness :
    (wShards ≠ [] ∧ ∀ s ∈ wShards, s.length = 0 + 1)
    ∧ (average_gradients wShards.length
        [fun r : Fin wShards.length =>
          some (meanGradTensor (wGrad wShards.flatten) (wShards.get r) 1)]
      = some [meanGradTensor (wGrad wShards.flatten) wShards.flatten 1]
    ∧ ∀ gsync,
        average_gradients wShards.length
            [fun r : Fin wShards.length =>
              some (meanGradTensor (wGrad wShards.flatten) (wShards.get r) 1)]
          = some [gsync] →
        sgdStep 1 [0] gsync =
          sgdStep 1 [0] (meanGradTensor (wGrad wShards.flatten) wShards.flatten 1)) :=
  ⟨⟨by decide, by decide⟩,
    C1_distributed_step_matches_full_batch_step 0 1 wShards (by decide) (by decide)
      wGrad 1 [0]⟩

/-! ## Synchronized normalization layer (training-mode forward)

`Net.__init__` (line 47) installs `SyncBatchNorm(128)` imported from
`syncbn` (line 12).  `syncbn.py` is not among the sources of this
repository, so the layer is modelled from the spec.  Statistics are
per feature and each feature is treated independently and identically,
so the model works on one feature column: a worker's local batch is the
`List ℚ` of that feature's values over its local examples. -/

/-- Modelled from the spec: step 1 of `SyncBatchNorm`'s training-mode
forward (`syncbn.py`, absent from `src/`) — the per-feature sum this
worker contributes. -/
def localSum (b : List ℚ) : ℚ := b.sum

/-- Modelled from the spec: step 1 — the per-feature sum of squares this
worker contributes. -/
def localSumSq (b : List ℚ) : ℚ := (b.map (fun x => x ^ 2)).sum

/-- Modelled from the spec: step 1 — the number of examples this worker
contributes. -/
def localCount (b : List ℚ) : ℚ := (b.length : ℚ)

/-- The `reduce_sum` collective on scalars: every participant receives the
sum of all participants' inputs. -/
def reduceSum (K : ℕ) (f : Fin K → ℚ) : ℚ := ∑ r, f r

/-- Modelled from the spec: step 2 — `global_count` obtained by
reduce-summing the local counts. -/
def globalCount (K : ℕ) (batches : Fin K → List ℚ) : ℚ :=
  reduceSum K (fun r => localCount (batches r))

/-- Modelled from the spec: step 2 — `global_sum`. -/
def globalSum (K : ℕ) (batches : Fin K → List ℚ) : ℚ :=
  reduceSum K (fun r => localSum (batches r))

/-- Modelled from the spec: step 2 — `global_sum_sq`. -/
def globalSumSq (K : ℕ) (batches : Fin K → List ℚ) : ℚ :=
  reduceSum K (fun r => localSumSq (batches r))

/-- Modelled from the spec: step 3 — `global_mean = global_sum / global_count`. -/
def globalMean (K : ℕ) (batches : Fin K → List ℚ) : ℚ :=
  globalSum K batches / globalCount K batches

/-- Modelled from the spec: step 3 — `global_var = global_sum_sq/global_count
− global_mean²`, clamped from below to the small positive floor. -/
def globalVar (K : ℕ) (batches : Fin K → List ℚ) (varFloor : ℚ) : ℚ :=
  max (globalSumSq K batches / globalCount K batches - globalMean K batches ^ 2) varFloor

/-- Modelled from the spec: step 4 — the training-mode output for a local
example `x`: `(x − global_mean) / sqrt(global_var + eps)`.  The square root
is not exactly representable in the rational model, so it is supplied as an
arbitrary function `sqrtFn`, the same one on every worker. -/
def syncBNOut (K : ℕ) (batches : Fin K → List ℚ) (varFloor eps : ℚ)
    (sqrtFn : ℚ → ℚ) (x : ℚ) : ℚ :=
  (x - globalMean K batches) / sqrtFn (globalVar K batches varFloor + eps)

/-- Reference (non-distributed) batch normalization over a single batch:
its mean. -/
def batchMean (b : List ℚ) : ℚ := b.sum / (b.length : ℚ)

/-- Reference batch variance `E[x²] − (E[x])²`, clamped to the floor. -/
def batchVarClamped (b : List ℚ) (varFloor : ℚ) : ℚ :=
  max ((b.map (fun x => x ^ 2)).sum / (b.length : ℚ) - batchMean b ^ 2) varFloor

/-- Reference batch-normalization output for `x` against batch `b`. -/
def bnOut (b : List ℚ) (varFloor eps : ℚ) (sqrtFn : ℚ → ℚ) (x : ℚ) : ℚ :=
  (x - batchMean b) / sqrtFn (batchVarClamped b varFloor + eps)

theorem globalCount_eq_concat (K : ℕ) (batches : Fin K → List ℚ) :
    globalCount K batches = localCount (List.ofFn batches).flatten := by
  rw [globalCount, reduceSum, localCount, List.length_flatten, List.map_ofFn]
  push_cast [List.sum_ofFn]
  rfl

theorem globalSum_eq_concat (K : ℕ) (batches : Fin K → List ℚ) :
    globalSum K batches = localSum (List.ofFn batches).flatten := by
  rw [globalSum, reduceSum, localSum, List.sum_flatten, List.map_ofFn, List.sum_ofFn]
  rfl

theorem globalSumSq_eq_concat (K : ℕ) (batches : Fin K → List ℚ) :
    globalSumSq K batches = localSumSq (List.ofFn batches).flatten := by
  rw [globalSumSq, reduceSum, localSumSq, List.map_flatten, List.sum_flatten,
    List.map_ofFn, List.map_ofFn, List.sum_ofFn]
  rfl

/-- C2: in training mode, the synchronized layer's forward obtains
`global_count`, `global_sum`, `global_sum_sq` by reduce-summing the
per-worker local count / per-feature sum / sum of squares — and these equal
the count, sum and sum of squares of the concatenation of all workers'
local batches; the derived `global_mean` and clamped `global_var` are
exactly the mean and clamped variance of that concatenation; and the output
for every local example `x` is `(x − global_mean) / sqrt(global_var + eps)`,
which coincides with non-distributed batch normalization of `x` against the
concatenated batch. -/
theorem C2_syncBN_forward_matches_global_batch (K : ℕ) (batches : Fin K → List ℚ)
    (varFloor eps : ℚ) (sqrtFn : ℚ → ℚ) :
    globalCount K batches = reduceSum K (fun r => localCount (batches r))
    ∧ globalCount K batches = localCount (List.ofFn batches).flatten
    ∧ globalSum K batches = localSum (List.ofFn batches).flatten
    ∧ globalSumSq K batches = localSumSq (List.ofFn batches).flatten
    ∧ globalMean K batches = batchMean (List.ofFn batches).flatten
    ∧ globalVar K batches varFloor = batchVarClamped (List.ofFn batches).flatten varFloor
    ∧ ∀ x, syncBNOut K batches varFloor eps sqrtFn x =
        bnOut (List.ofFn batches).flatten varFloor eps sqrtFn x := by
  have hc := globalCount_eq_concat K batches
  have hs := globalSum_eq_concat K batches
  have hq := globalSumSq_eq_concat K batches
  have hmean : globalMean K batches = batchMean (List.ofFn batches).flatten := by
    rw [globalMean, hc, hs, batchMean, localSum, localCount]
  have hvar : globalVar K batches varFloor =
      batchVarClamped (List.ofFn batches).flatten varFloor := by
    rw [globalVar, hc, hq, hmean, batchVarClamped, localSumSq, localCount]
  refine ⟨rfl, hc, hs, hq, hmean, hvar, ?_⟩
  intro x
  rw [syncBNOut, bnOut, hmean, hvar]

/-! ## Validation metric aggregation (lines 131–149) -/

/-- A worker's per-epoch validation triple: summed loss over its shard,
number of correctly classified examples, number of examples. -/
structure ValTriple where
  lossSum : ℚ
  correct : ℚ
  count : ℚ
deriving DecidableEq, Repr

/-- Embedding of the code's per-epoch aggregation (lines 143–146): each
worker forms `sync_tensor = torch.tensor([val_loss, val_acc])` where
`val_acc = val_acc / elements_count` is its *local accuracy ratio*
(line 143); the pair is `all_reduce`-summed and divided in place by
`world_size`, i.e. both components are averaged over ranks. -/
def codeValAgg (K : ℕ) (w : Fin K → ValTriple) : ℚ × ℚ :=
  ((∑ r, (w r).lossSum) / (K : ℚ),
   (∑ r, (w r).correct / (w r).count) / (K : ℚ))

/-- The aggregation the claim describes: reduce-sum the
`(loss_sum, correct_count, example_count)` triples and divide the summed
loss and the summed correct count by the total example count — the values
computed directly over the concatenation of all shards. -/
def specValAgg (K : ℕ) (w : Fin K → ValTriple) : ℚ × ℚ :=
  ((∑ r, (w r).lossSum) / (∑ r, (w r).count),
   (∑ r, (w r).correct) / (∑ r, (w r).count))

/-- The failing input for C5: two workers; worker 0 evaluated 1 example
(summed loss 2, 1 correct), worker 1 evaluated 3 examples (summed loss 2,
0 correct). -/
def c5Workers : Fin 2 → ValTriple := ![⟨2, 1, 1⟩, ⟨2, 0, 3⟩]

/-- C5 evaluated at the failing input: the code's aggregation returns
`(2, 1/2)` — the rank-mean of per-worker loss sums and of per-worker
accuracy *ratios* — while the reduce-summed triples over the concatenation
of the shards give mean loss `(2+2)/(1+3) = 1` and accuracy
`(1+0)/(1+3) = 1/4`.  The code's numbers disagree with the claimed ones. -/
theorem C5_metric_aggregation_differs :
    codeValAgg 2 c5Workers = (2, 1/2)
    ∧ specValAgg 2 c5Workers = (1, 1/4)
    ∧ codeValAgg 2 c5Workers ≠ specValAgg 2 c5Workers := by
  refine ⟨?_, ?_, ?_⟩ <;>
    simp [codeValAgg, specValAgg, c5Workers, Fin.sum_univ_two] <;> norm_num

/-! ## Training orchestrator (lines 104–149)

The orchestrator's control flow is embedded as the trace of observable
events its loops emit, by direct recursion mirroring the Python `for`
loops. -/

/-- The observable events of `run_training`'s main loop. -/
inductive Event where
  | zeroGrad
  | forward (training : Bool)
  | lossCompute
  | backward
  | syncGradients
  | optStep
  | valForward (training : Bool)
  | metricAllReduce
deriving DecidableEq, Repr

/-- `nn.Module`s are constructed in training mode (`self.training = True`);
`run_training` never calls `model.eval()` or `model.train(False)`, so the
model's mode flag holds `true` for the whole run — validation included. -/
def modelMode : Bool := true

/-- Events of one training batch (lines 118–124): zero gradients, forward,
loss computation, backward, gradient synchronization, optimizer step, in
that order. -/
def trainBatchEvents (mode : Bool) : List Event :=
  [.zeroGrad, .forward mode, .lossCompute, .backward, .syncGradients, .optStep]

/-- Events of one validation batch (lines 134–142): a forward pass only. -/
def valBatchEvents (mode : Bool) : List Event := [.valForward mode]

/-- The inner training loop, one iteration per batch. -/
def trainLoop (mode : Bool) : ℕ → List Event
  | 0 => []
  | n + 1 => trainBatchEvents mode ++ trainLoop mode n

/-- The inner validation loop, one iteration per batch. -/
def valLoop (mode : Bool) : ℕ → List Event
  | 0 => []
  | n + 1 => valBatchEvents mode ++ valLoop mode n

/-- The epoch loop: each epoch runs all training batches, then all
validation batches, then the per-epoch metric `all_reduce`
(lines 111–146). -/
def epochLoop (mode : Bool) (nTrain nVal : ℕ) : ℕ → List Event
  | 0 => []
  | e + 1 => trainLoop mode nTrain ++ valLoop mode nVal ++ [.metricAllReduce]
      ++ epochLoop mode nTrain nVal e

/-- The whole run: `for _ in range(10)` epochs (line 111), with the model's
mode flag never toggled from its initial value. -/
def runEvents (nTrain nVal : ℕ) : List Event :=
  epochLoop modelMode nTrain nVal 10

/-- Modelled from the spec: whether a `SyncBatchNorm` forward issues
`reduce_sum` collectives (`syncbn.py` is absent from `src/`) — it does
exactly in training mode; in evaluation mode it normalizes with the stored
running statistics and issues none. -/
def syncBNIssuesCollective (training : Bool) : Bool := training

theorem trainLoop_eq_replicate (mode : Bool) (n : ℕ) :
    trainLoop mode n = (List.replicate n (trainBatchEvents mode)).flatten := by
  induction n with
  | zero => rfl
  | succ n ih => rw [trainLoop, ih, List.replicate_succ, List.flatten_cons]

theorem valLoop_eq_replicate (mode : Bool) (n : ℕ) :
    valLoop mode n = (List.replicate n (valBatchEvents mode)).flatten := by
  induction n with
  | zero => rfl
  | succ n ih => rw [valLoop, ih, List.replicate_succ, List.flatten_cons]

theorem epochLoop_eq_replicate (mode : Bool) (nTrain nVal e : ℕ) :
    epochLoop mode nTrain nVal e =
      (List.replicate e (trainLoop mode nTrain ++ valLoop mode nVal
        ++ [Event.metricAllReduce])).flatten := by
  induction e with
  | zero => rfl
  | succ e ih =>
    rw [epochLoop, ih, List.replicate_succ, List.flatten_cons, List.append_assoc]

theorem not_valForward_mem_trainLoop (b mode : Bool) (n : ℕ) :
    Event.valForward b ∉ trainLoop mode n := by
  induction n with
  | zero => simp [trainLoop]
  | succ n ih => simp [trainLoop, trainBatchEvents, ih]

theorem valForward_mem_valLoop (b mode : Bool) (n : ℕ) :
    Event.valForward b ∈ valLoop mode n ↔ b = mode ∧ 1 ≤ n := by
  induction n with
  | zero => simp [valLoop]
  | succ n ih =>
    simp [valLoop, valBatchEvents, ih]
    exact fun h _ => h

theorem valForward_mem_epochLoop (b mode : Bool) (nTrain nVal e : ℕ) :
    Event.valForward b ∈ epochLoop mode nTrain nVal e ↔ b = mode ∧ 1 ≤ nVal ∧ 1 ≤ e := by
  induction e with
  | zero => simp [epochLoop]
  | succ e ih =>
    simp [epochLoop, List.mem_append, ih, not_valForward_mem_trainLoop,
      valForward_mem_valLoop]
    exact fun h h2 _ => ⟨h, h2⟩

/-- C9: for every training-batch count and validation-batch count, the
orchestrator's trace is exactly ten epochs, each epoch consisting of the
training batches — each emitting zero-gradients, forward, loss, backward,
gradient synchronization and optimizer step, in that order — followed by
the validation batches and the per-epoch metric reduction; the run
terminates after the fixed `range(10)` epoch count. -/
theorem C9_step_order_and_fixed_epochs (nTrain nVal : ℕ) :
    runEvents nTrain nVal =
      (List.replicate 10
        ((List.replicate nTrain
          [Event.zeroGrad, Event.forward true, Event.lossCompute, Event.backward,
            Event.syncGradients, Event.optStep]).flatten
          ++ (List.replicate nVal [Event.valForward true]).flatten
          ++ [Event.metricAllReduce])).flatten := by
  rw [runEvents, epochLoop_eq_replicate, trainLoop_eq_replicate, valLoop_eq_replicate]
  rfl

/-- C6 fails on the code: `run_training` never switches the model to
evaluation mode, so every validation-batch forward executes with the
normalization layer still in training mode (`valForward true`; a
`valForward false` event never occurs in any run), and a training-mode
forward of the synchronized layer issues `reduce_sum` collectives while
processing validation batches — contrary to the claimed eval-mode,
collective-free validation pass. -/
theorem C6_validation_forward_stays_in_training_mode (nTrain nVal : ℕ) :
    Event.valForward false ∉ runEvents nTrain nVal
    ∧ Event.valForward true ∈ runEvents nTrain (nVal + 1)
    ∧ modelMode = true
    ∧ syncBNIssuesCollective modelMode = true := by
  refine ⟨?_, ?_, rfl, rfl⟩
  · intro h
    have := (valForward_mem_epochLoop false modelMode nTrain nVal 10).mp h
    exact absurd this.1 (by simp [modelMode])
  · exact (valForward_mem_epochLoop true modelMode nTrain (nVal + 1) 10).mpr
      ⟨rfl, by omega, by omega⟩

/-! ## Worker initialization (line 76) -/

/-- Embedding of line 76: `torch.manual_seed(rank)` — the RNG seed each
worker installs before constructing `Net()` (line 104) is its own rank. -/
def manualSeedArg (rank : ℕ) : ℕ := rank

/-- C8 fails on the code: the seed fed to the parameter-initialization RNG
is the worker's rank, so rank 0 seeds with 0 and rank 1 with 1 — the
workers draw their initial parameters from differently-seeded RNG streams,
and nothing broadcasts rank 0's parameters; the claimed identical
initialization does not hold. -/
theorem C8_rng_seed_differs_across_ranks :
    manualSeedArg 0 = 0 ∧ manualSeedArg 1 = 1
    ∧ manualSeedArg 0 ≠ manualSeedArg 1 := by
  refine ⟨rfl, rfl, ?_⟩
  intro h
  exact absurd h (by simp [manualSeedArg])

end DDP
